import Mathlib

/-!
# Verification of the `tupdate` update engine

A shallow embedding of the core of the `tupdate` client-side updater
(`src/main.rs`, `src/update_finder.rs`, `src/patience.rs`), together with
theorems settling the frozen claims about its specification.

Modelling conventions:
* Bytes are `Nat` (values below 256 in all real inputs); byte strings are
  `List Nat`.
* Filesystem paths are lists of components (`List String`), mirroring how
  Rust compares and joins `Path`s component-wise.  `p.parent()` is modelled
  by dropping the last component (`none` for the empty path, as in Rust
  where the chain of `parent()` calls ends after the empty path).
* The filesystem is an association list from paths to file contents; entries
  added later shadow earlier ones, and lookups take the first match.
  Directories are implicit: a path is a directory when some file lives
  strictly below it.
* External collaborators (SHA-256, zlib, UTF-8 decoding, `Url::join`,
  `Path::join`, the HTTP server, the OS environment, glob sensing) are
  parameters of the embedding, modelled by their contracts; the embedded
  code treats their outputs exactly as the Rust code treats the
  corresponding library results.
* Rust `Result`s are `Except`; a reachable panic (out-of-bounds slice
  index) is modelled as an explicit `panic` outcome, never silently ignored.
-/

/-! ## Basic data -/

/-- A filesystem path, as its list of components. -/
abbrev FsPath := List String

/-- URLs are kept opaque: the embedding never inspects their structure. -/
abbrev Url := String

/-- One byte string (file contents, wire payloads). -/
abbrev Bytes := List Nat

/-- Does the character list `needle` occur as a contiguous substring of
`hay`?  Models Rust's `str::find(pattern).is_some()`. -/
def hasSubstring (needle : List Char) : List Char → Bool
  | [] => needle.isEmpty
  | c :: rest => needle.isPrefixOf (c :: rest) || hasSubstring needle rest

/-- `is_fishy_path` from `src/main.rs` lines 30-32: a textual relative path
is fishy when it starts with `.`, `/` or `\`, or contains `/.` or `\.`.
(`str::starts_with` is prefix matching on the character sequence,
`str::find(pat).is_some()` substring occurrence.) -/
def is_fishy_path (target : String) : Bool :=
  ".".data.isPrefixOf target.data || "/".data.isPrefixOf target.data ||
    "\\".data.isPrefixOf target.data ||
    hasSubstring "/.".data target.data || hasSubstring "\\.".data target.data

/-- `Cat` from `src/main.rs` lines 52-59: one catalog entry. -/
structure Cat where
  src_url : Url
  dst_path : FsPath
  checksum : Bytes
  size : Nat
  needs_download : Bool
  deriving DecidableEq, Repr

/-- External collaborators of the core, modelled by their contracts. -/
structure Env where
  /-- `lsx::sha256`: full digest of a byte string.  The rolling hasher
  (`BufSha256`, `update`/`finish`) is modelled as this function applied to
  the concatenation of all updates. -/
  sha256 : Bytes → Bytes
  /-- `flate2` zlib decompression of the whole input (`read_to_end`);
  `none` models a decompression error. -/
  zlib : Bytes → Option Bytes
  /-- `std::str::from_utf8`; `none` models invalid UTF-8. -/
  fromUtf8 : Bytes → Option String
  /-- `Url::join`; `none` models a join error. -/
  joinUrl : Url → String → Option Url
  /-- `Path::join` of a base directory and a textual relative path. -/
  pathJoin : FsPath → String → FsPath

/-! ## `Cat::try_parse` (`src/main.rs` lines 62-82) -/

/-- Checked slicing `bytes[a..b]`: `none` models the Rust out-of-bounds
panic. -/
def slice? (bytes : Bytes) (a b : Nat) : Option Bytes :=
  if a ≤ b ∧ b ≤ bytes.length then some ((bytes.drop a).take (b - a)) else none

/-- Big-endian interpretation of a byte string
(`u64::from_be_bytes` / `u32::from_be_bytes` / `u16::from_be_bytes`). -/
def beNat (bytes : Bytes) : Nat :=
  bytes.foldl (fun a b => a * 256 + b) 0

/-- Outcome of `Cat::try_parse`: success with the entry and the remaining
payload, a parse error (`Err(())`), or a Rust panic. -/
inductive ParseOut where
  | ok (cat : Cat) (rest : Bytes)
  | err
  | panic
  deriving DecidableEq, Repr

/-- `Cat::try_parse` from `src/main.rs` lines 62-82, statement by statement.
`bytes.len() - 42` is `usize` subtraction, which wraps in release builds;
it is modelled as wrapping subtraction mod `2^64`.  The four slice
expressions are modelled with `slice?`, `none` meaning the out-of-bounds
panic. -/
def Cat.try_parse (env : Env) (bytes : Bytes) (base_url : Url) (base_path : FsPath) :
    ParseOut :=
  match bytes.findIdx? (· == 10) with
  | none => .err
  | some newline =>
    if newline == 0 then .err
    else if newline > (bytes.length + (2 ^ 64 - 42)) % 2 ^ 64 then .err
    else
      match env.fromUtf8 (bytes.take newline) with
      | none => .err
      | some file_path =>
        match slice? bytes (newline + 1) (newline + 33) with
        | none => .panic
        | some checksum =>
          match slice? bytes (newline + 33) (newline + 41) with
          | none => .panic
          | some sizeBytes =>
            match slice? bytes (newline + 41) (newline + 43) with
            | none => .panic
            | some xtBytes =>
              let size := beNat sizeBytes
              let xt := beNat xtBytes
              let next := newline + 43 + xt
              if next > bytes.length then .err
              else if is_fishy_path file_path then .err
              else
                match env.joinUrl base_url file_path with
                | none => .err
                | some src_url =>
                  .ok
                    { src_url := src_url
                      dst_path := env.pathJoin base_path file_path
                      checksum := checksum
                      size := size
                      needs_download := false }
                    (bytes.drop next)

/-! ## Catalog decoding (`determine_tasks`, `src/main.rs` lines 209-248) -/

/-- Failure modes of decoding one catalog body.  `missing` is the
"Missing catalog" dialog for an empty body, `invalid` the
"Invalid catalog" dialog, `panic` an out-of-bounds slice panic (a crash,
with no dialog at all). -/
inductive CatalogError where
  | missing
  | invalid
  | panic
  deriving DecidableEq, Repr

theorem try_parse_rest_length_lt (env : Env) (bytes : Bytes) (base_url : Url)
    (base_path : FsPath) (cat : Cat) (rest : Bytes)
    (h : Cat.try_parse env bytes base_url base_path = .ok cat rest) :
    rest.length < bytes.length := by
  unfold Cat.try_parse at h
  split at h
  · exact absurd h (by simp)
  next newline hfind =>
    split at h
    · exact absurd h (by simp)
    split at h
    · exact absurd h (by simp)
    split at h
    · exact absurd h (by simp)
    next file_path hutf =>
      split at h
      · exact absurd h (by simp)
      split at h
      · exact absurd h (by simp)
      split at h
      · exact absurd h (by simp)
      next xtBytes hxt =>
        simp only at h
        split at h
        · exact absurd h (by simp)
        next hlen =>
          split at h
          · exact absurd h (by simp)
          split at h
          · exact absurd h (by simp)
          next src_url hjoin =>
            have hr : rest = bytes.drop (newline + 43 + beNat xtBytes) := by
              cases h; rfl
            subst hr
            simp only [List.length_drop]
            omega

/-- The entry-parsing loop at the end of `determine_tasks`
(`src/main.rs` lines 234-248): parse entries until the payload is
exhausted; a parse error discards everything and reports an invalid
catalog. -/
def parse_entries (env : Env) (caturl : Url) (basedir : FsPath) (bytes : Bytes) :
    Except CatalogError (List Cat) :=
  if _h : bytes.length = 0 then .ok []
  else
    match hp : Cat.try_parse env bytes caturl basedir with
    | .ok cat rest =>
      match parse_entries env caturl basedir rest with
      | .ok cats => .ok (cat :: cats)
      | .error e => .error e
    | .err => .error .invalid
    | .panic => .error .panic
termination_by bytes.length
decreasing_by exact try_parse_rest_length_lt env bytes caturl basedir _ _ hp

/-- Decoding of one catalog body, from `determine_tasks`
(`src/main.rs` lines 209-248): empty-body check, magic check, header
digest and size extraction, zlib decompression with exact-length and
digest verification, then the entry loop.  The Rust slice expressions
`&body[..5]`, `&body[5..37]` and `body[37..41]` panic when the body is
shorter than their upper bound; this is the `panic` outcome. -/
def decode_catalog (env : Env) (caturl : Url) (basedir : FsPath) (body : Bytes) :
    Except CatalogError (List Cat) :=
  if body.length = 0 then .error .missing
  else
    match slice? body 0 5 with
    | none => .error .panic
    | some magic =>
      if magic ≠ [0xFF, 0x54, 0x43, 0x61, 0x74] then .error .invalid
      else
        match slice? body 5 37, slice? body 37 41 with
        | some checksum, some sizeBytes =>
          let uncompressed_size := beNat sizeBytes
          match env.zlib (body.drop 41) with
          | none => .error .invalid
          | some uncompressed =>
            if uncompressed.length ≠ uncompressed_size ∨ env.sha256 uncompressed ≠ checksum
            then .error .invalid
            else parse_entries env caturl basedir uncompressed
        | _, _ => .error .panic

/-! ## Filesystem model -/

/-- The local filesystem: an association list from paths to file contents.
Later entries shadow earlier ones; `fsGet` takes the first match.
Directories are implicit. -/
abbrev Fs := List (FsPath × Bytes)

/-- Content of the file at `p`, if any (`stat` / `File::open` + read). -/
def fsGet (fs : Fs) (p : FsPath) : Option Bytes :=
  (fs.find? (fun e => e.1 == p)).map (·.2)

/-- Create/truncate-and-write: the new binding shadows any earlier one. -/
def fsSet (fs : Fs) (p : FsPath) (c : Bytes) : Fs :=
  (p, c) :: fs

/-! ## Local state differ (`find_cat_statuses`, `src/main.rs` lines 253-322) -/

/-- Result of `std::fs::metadata(dst_path)`: not found, some other I/O
error, or success with the file length. -/
inductive MetaRes where
  | notFound
  | otherErr
  | found (len : Nat)
  deriving DecidableEq, Repr

instance {ε α : Type} [DecidableEq ε] [DecidableEq α] : DecidableEq (Except ε α) := fun a b =>
  match a, b with
  | .error e, .error f =>
    if h : e = f then isTrue (by rw [h]) else isFalse (by intro hh; cases hh; exact h rfl)
  | .error _, .ok _ => isFalse (by intro hh; cases hh)
  | .ok _, .error _ => isFalse (by intro hh; cases hh)
  | .ok x, .ok y =>
    if h : x = y then isTrue (by rw [h]) else isFalse (by intro hh; cases hh; exact h rfl)

/-- What the worker observes about one `dst_path`: the `metadata` result,
whether `File::open` succeeds, and the outcome of the 32 KiB read loop
(`error` for a mid-stream read error, `ok` with the full content
otherwise). -/
structure FileView where
  meta : MetaRes
  openOk : Bool
  read : Except Unit Bytes
  deriving DecidableEq, Repr

/-- The per-entry condition of the differ worker body
(`src/main.rs` lines 265-319): `true` exactly in the branches that execute
`cat.needs_download = true`. -/
def catStatus (sha256 : Bytes → Bytes) (v : FileView) (cat : Cat) : Bool :=
  match v.meta with
  | .notFound => true
  | .otherErr => true
  | .found len =>
    if len ≠ cat.size then true
    else if !v.openOk then true
    else
      match v.read with
      | .error _ => true
      | .ok content => sha256 content ≠ cat.checksum

/-- The update each worker applies to its entry: the flag is only ever
raised, never cleared. -/
def updCat (sha256 : Bytes → Bytes) (view : FsPath → FileView) (cat : Cat) : Cat :=
  { cat with needs_download := cat.needs_download || catStatus sha256 (view cat.dst_path) cat }

/-- `find_cat_statuses` from `src/main.rs` lines 253-322.  Every entry is
examined independently; the function always returns `Ok(())` — worker I/O
errors only mark entries for re-download (progress reporting is UI-only
and not modelled). -/
def find_cat_statuses (sha256 : Bytes → Bytes) (view : FsPath → FileView)
    (all_cats : List Cat) : Except Unit (List Cat) :=
  .ok (all_cats.map (updCat sha256 view))

/-- The view of a path that an error-free filesystem produces: `metadata`
and the read loop faithfully report the stored content. -/
def viewOfFs (fs : Fs) (p : FsPath) : FileView :=
  match fsGet fs p with
  | none => { meta := .notFound, openOk := false, read := .error () }
  | some c => { meta := .found c.length, openOk := true, read := .ok c }

/-! ## Download & verify (`perform_downloads`, `src/main.rs` lines 372-439) -/

/-- One HTTP body chunk. -/
abbrev Chunk := Bytes

/-- Failure modes of the download phase: `downloadFailed` is the
"Download failed" dialog (non-200 status or transport error),
`corrupted` the "Update failed … downloads was corrupted" dialog issued
via `do_error` on a digest or size mismatch. -/
inductive DlError where
  | downloadFailed
  | corrupted
  deriving DecidableEq, Repr

/-- The chunk loop of `perform_downloads` (`src/main.rs` lines 404-431):
while the per-file byte count is still `≤ cat.size`, take the next chunk,
write it to the file, feed it to the rolling hasher and bump the counters.
Returns the filesystem, the per-file byte count, and the bytes received
(which are both the written file content and the hasher input). -/
def dlLoop (p : FsPath) (size : Nat) : Fs → Nat → Bytes → List Chunk → Fs × Nat × Bytes
  | fs, recvd, got, chunks =>
    if recvd ≤ size then
      match chunks with
      | [] => (fs, recvd, got)
      | c :: rest => dlLoop p size (fsSet fs p (got ++ c)) (recvd + c.length) (got ++ c) rest
    else (fs, recvd, got)

/-- `perform_downloads` from `src/main.rs` lines 372-439.  `server` models
the HTTP client: the chunk stream of a 200 response, or `none` for a
non-200 status or transport error.  Entries without `needs_download` are
skipped (`continue`).  For a downloaded entry the file is created
truncated, the chunk loop runs, and then the rolling digest and byte count
are checked; a mismatch is the `corrupted` error.  The second component is
the list of URLs for which a GET was issued, in order.  (`create_dir_all`
is a no-op in the implicit-directory model; local open/write errors do not
arise in it; progress/rate reporting is UI-only and not modelled.) -/
def perform_downloads (sha256 : Bytes → Bytes) (server : Url → Option (List Chunk)) :
    Fs → List Cat → Except DlError Fs × List Url
  | fs, [] => (.ok fs, [])
  | fs, cat :: rest =>
    if cat.needs_download = false then perform_downloads sha256 server fs rest
    else
      match server cat.src_url with
      | none => (.error .downloadFailed, [cat.src_url])
      | some chunks =>
        let fs1 := fsSet fs cat.dst_path []
        let out := dlLoop cat.dst_path cat.size fs1 0 [] chunks
        if sha256 out.2.2 ≠ cat.checksum ∨ out.2.1 ≠ cat.size then
          (.error .corrupted, [cat.src_url])
        else
          let tail := perform_downloads sha256 server out.1 rest
          (tail.1, cat.src_url :: tail.2)

/-- The byte count and received body that the chunk loop produces for a
given expected size and chunk stream (the pure projection of `dlLoop`). -/
def recvLoop (size : Nat) : Nat → Bytes → List Chunk → Nat × Bytes
  | recvd, got, chunks =>
    if recvd ≤ size then
      match chunks with
      | [] => (recvd, got)
      | c :: rest => recvLoop size (recvd + c.length) (got ++ c) rest
    else (recvd, got)

/-- The verification `perform_downloads` applies to one downloaded entry:
rolling digest equals the stored checksum and the byte count equals the
stored size. -/
def downloadOk (sha256 : Bytes → Bytes) (cat : Cat) (chunks : List Chunk) : Prop :=
  sha256 (recvLoop cat.size 0 [] chunks).2 = cat.checksum ∧
    (recvLoop cat.size 0 [] chunks).1 = cat.size

/-! ## Deletion planning (`determine_tasks` lines 188-191, `trim_deletions`
lines 324-347) -/

/-- `all_deletions.sort_by(|a,b| a.path().cmp(&b.path()))`
(`src/main.rs` lines 188-190).  Models `slice::sort_by` by its contract —
a permutation sorted under the comparator — realised here by insertion
sort under the lexicographic order on component lists. -/
def sortPaths (l : List FsPath) : List FsPath :=
  l.insertionSort (· ≤ ·)

/-- `all_deletions.dedup_by(|a,b| a.path() == b.path())`
(`src/main.rs` line 191): remove adjacent duplicates, keeping the first of
each run. -/
def dedupAdjacent (l : List FsPath) : List FsPath :=
  l.destutter (· ≠ ·)

/-- `all_deletions.binary_search_by(|el| el.as_path().cmp(dis))`
(`src/main.rs` lines 328-330).  Models `slice::binary_search_by` by its
contract: on a sorted slice it returns `Ok(i)` with `self[i]` matching the
target exactly when the target is present. -/
def binary_search (dels : List FsPath) (target : FsPath) : Option Nat :=
  dels.findIdx? (fun el => el == target)

/-- One step of the ancestor walk in `trim_deletions`: remove the path
from the deletion list if the binary search finds it
(`src/main.rs` lines 328-332). -/
def removeFound (dels : List FsPath) (p : FsPath) : List FsPath :=
  match binary_search dels p with
  | some i => dels.eraseIdx i
  | none => dels

/-- The `while let Some(dis) = pat` walk of `trim_deletions`
(`src/main.rs` lines 326-334): process `d`, then its parent, and so on;
the walk ends after the empty path (whose `parent()` is `None`). -/
def trimChain (dels : List FsPath) (d : FsPath) : List FsPath :=
  let dels' := removeFound dels d
  if _h : d = [] then dels' else trimChain dels' d.dropLast
termination_by d.length
decreasing_by
  simp only [List.length_dropLast]
  have hne : d ≠ [] := by assumption
  have hpos : 0 < d.length := List.length_pos.mpr hne
  omega

/-- `trim_deletions` from `src/main.rs` lines 324-347: for each catalog
entry, remove its `dst_path` and every ancestor from the deletion list
(verbose logging omitted). -/
def trim_deletions (all_cats : List Cat) (all_deletions : List FsPath) : List FsPath :=
  all_cats.foldl (fun dels cat => trimChain dels cat.dst_path) all_deletions

/-! ## Deletion executor (`perform_deletions`, `src/main.rs` lines 441-460) -/

/-- Is `p` a directory in `fs`, i.e. does some file live strictly below
it? -/
def isDirIn (fs : Fs) (p : FsPath) : Bool :=
  fs.any (fun e => p.isPrefixOf e.1 && !(p == e.1))

/-- `perform_deletions` from `src/main.rs` lines 441-460: for each listed
path in order, `stat` it; skip if not found; `remove_dir_all` if it is a
directory (everything at or below `p` disappears); `remove_file`
otherwise.  In the error-free filesystem model the stat/remove calls do
not fail, so the function always returns `Ok`. -/
def perform_deletions (fs : Fs) : List FsPath → Except Unit Fs
  | [] => .ok fs
  | p :: rest =>
    match fsGet fs p with
    | some _ => perform_deletions (fs.filter (fun e => !(e.1 == p))) rest
    | none =>
      if isDirIn fs p then
        perform_deletions (fs.filter (fun e => !(p.isPrefixOf e.1))) rest
      else perform_deletions fs rest

/-! ## The run, from parsed catalogs to exit (`real_main`,
`src/main.rs` lines 462-487) -/

/-- The tail of `real_main` (`src/main.rs` lines 471-487), starting from
the parsed catalog entries and the raw walked deletion candidates: sort
and deduplicate the deletion list (end of `determine_tasks`), run the
differ, trim the deletion list, perform the downloads, then the
deletions.  `some fs` is the success exit code with the final filesystem;
`none` is the failure exit code. -/
def real_main (sha256 : Bytes → Bytes) (server : Url → Option (List Chunk))
    (fs : Fs) (all_cats : List Cat) (walked : List FsPath) : Option Fs :=
  let dels := dedupAdjacent (sortPaths walked)
  match find_cat_statuses sha256 (viewOfFs fs) all_cats with
  | .error _ => none
  | .ok cats2 =>
    let dels2 := trim_deletions cats2 dels
    match perform_downloads sha256 server fs cats2 with
    | (.error _, _) => none
    | (.ok fs2, _) =>
      match perform_deletions fs2 dels2 with
      | .error _ => none
      | .ok fs3 => some fs3

/-! ## Patience gate (`src/patience.rs`) -/

/-- `UPDATE_INTERVAL` from `src/patience.rs` line 3, in nanoseconds
(`Duration::new(0, 200000000)`, i.e. 200 ms). -/
def UPDATE_INTERVAL : Nat := 200000000

/-- The `while last_time < now { last_time += UPDATE_INTERVAL }` catch-up
loop of `have_been_patient` (`src/patience.rs` lines 32-34). -/
def catchUp (last now : Nat) : Nat :=
  if last < now then catchUp (last + UPDATE_INTERVAL) now else last
termination_by now - last
decreasing_by simp only [UPDATE_INTERVAL]; omega

/-- `Patience::have_been_patient` from `src/patience.rs` lines 14-43, as a
function of the stored `last_time` (in nanoseconds since an arbitrary
epoch) and the current instant `now`.  Returns the boolean result and the
new stored state. -/
def have_been_patient (last_time : Option Nat) (now : Nat) : Bool × Option Nat :=
  match last_time with
  | none => (true, some now)
  | some last =>
    if now < last then (true, some now)
    else
      let diff := now - last
      if diff ≥ UPDATE_INTERVAL * 5 then (true, some now)
      else if diff ≥ UPDATE_INTERVAL then (true, some (catchUp last now))
      else (false, some last)

/-- A sequence of `have_been_patient` calls at the given instants: the
results and the final state. -/
def patRun (st : Option Nat) : List Nat → List Bool × Option Nat
  | [] => ([], st)
  | t :: ts =>
    let r := have_been_patient st t
    let tail := patRun r.2 ts
    (r.1 :: tail.1, tail.2)

/-! ## Index interpreter: `detect_dir` and friends
(`src/update_finder.rs`) -/

/-- The `DirRegistry` (`UpdateFinder.dirs`): identifier to detected
directory, newest binding first. -/
abbrev Dirs := List (String × String)

/-- External collaborators of `detect_dir`: path absoluteness, the sense
predicate (whose `Except` models the glob syntax errors that `sense`
raises), and the OS environment. -/
structure DetectEnv where
  isAbsolute : String → Bool
  senseGlob : String → String → Except Unit Bool
  envVar : String → Option String

/-- The `for srcglob in globs` loop of `check_detected_dir`
(`src/update_finder.rs` lines 96-105): every glob is evaluated (a failed
one clears `ok` but the loop continues), and a sense error propagates. -/
def senseAll (env : DetectEnv) (candidate : String) : List String → Except Unit Bool
  | [] => .ok true
  | g :: rest =>
    match env.senseGlob candidate g with
    | .error e => .error e
    | .ok b =>
      match senseAll env candidate rest with
      | .error e => .error e
      | .ok b' => .ok (b && b')

/-- `check_detected_dir` from `src/update_finder.rs` lines 90-113: a
relative candidate is a hard error; otherwise the candidate is accepted
exactly when every silhouette sense glob matches, and acceptance registers
it under `var`.  `silhouette = none` models a silhouette without a usable
`sense` list (the loop is skipped and the candidate accepted). -/
def check_detected_dir (env : DetectEnv) (dirs : Dirs) (var : String)
    (candidate : String) (silhouette : Option (List String)) :
    Except Unit (Bool × Dirs) :=
  if !env.isAbsolute candidate then .error ()
  else
    match senseAll env candidate (silhouette.getD []) with
    | .error e => .error e
    | .ok ok => if ok then .ok (true, (var, candidate) :: dirs) else .ok (false, dirs)

/-- The candidate-iterator loop of `detect_dir`
(`src/update_finder.rs` lines 128-140): resume the coroutine (modelled as
the list of strings it yields), validate each candidate, stop at the first
acceptance. -/
def detectLoop (env : DetectEnv) (dirs : Dirs) (id : String)
    (candidates : List String) (silhouette : Option (List String)) :
    Except Unit Dirs :=
  match candidates with
  | [] => .ok dirs
  | c :: rest =>
    match check_detected_dir env dirs id c silhouette with
    | .error e => .error e
    | .ok (true, dirs') => .ok dirs'
    | .ok (false, dirs') => detectLoop env dirs' id rest silhouette

/-- `detect_dir` from `src/update_finder.rs` lines 114-142: return at once
if `id` is already registered; otherwise try the environment variable
named `id` (when set), then the iterator's candidates in yield order
(verbose logging omitted; the human-readable `name` argument is used only
for logging and is not modelled). -/
def detect_dir (env : DetectEnv) (dirs : Dirs) (id : String)
    (candidates : List String) (silhouette : Option (List String)) :
    Except Unit Dirs :=
  if (dirs.lookup id).isSome then .ok dirs
  else
    match env.envVar id with
    | some wo =>
      match check_detected_dir env dirs id wo silhouette with
      | .error e => .error e
      | .ok (true, dirs') => .ok dirs'
      | .ok (false, dirs') => detectLoop env dirs' id candidates silhouette
    | none => detectLoop env dirs id candidates silhouette

/-- `basedir` from `src/update_finder.rs` lines 143-155, reduced to its
observable outcome: the registry entry for `target`, or a runtime error
when no directory was detected under that identifier. -/
def basedir (dirs : Dirs) (target : String) : Except Unit String :=
  match dirs.lookup target with
  | none => .error ()
  | some x => .ok x

/-! ## Index script error handling (`find_updates`,
`src/update_finder.rs` lines 310-324, 336-344) -/

/-- An `mlua` execution error: a callback error carrying the formatted
root cause, or any other Lua error carrying its formatted message. -/
inductive LuaError where
  | callbackError (cause : String)
  | otherError (msg : String)
  deriving DecidableEq, Repr

/-- The `Display` implementation of the `BailOut` sentinel
(`src/update_finder.rs` lines 340-344): it formats as `BAIL OUT`. -/
def BailOut_display : String := "BAIL OUT"

/-- The error the `bail_out` primitive raises
(`src/update_finder.rs` lines 306-308): `mlua` surfaces the external
`BailOut` error as a callback error whose root cause formats as
`BailOut_display`. -/
def bail_out_raised : LuaError := .callbackError BailOut_display

/-- What `find_updates` reports: whether it returned `Ok` or `Err`, and
the `do_error` dialog text if one was shown. -/
structure ExecReport where
  result : Except Unit Unit
  dialog : Option String
  deriving DecidableEq, Repr

/-- The `match lua.load(body) … exec()` tail of `find_updates`
(`src/update_finder.rs` lines 310-324): on success no dialog; on a
callback error whose root cause formats as `BAIL OUT`, no dialog but still
`Err`; on any other error, a "Lua error" dialog and `Err`. -/
def handle_exec (r : Except LuaError Unit) : ExecReport :=
  match r with
  | .ok _ => { result := .ok (), dialog := none }
  | .error (.callbackError cause) =>
    if cause ≠ BailOut_display then { result := .error (), dialog := some cause }
    else { result := .error (), dialog := none }
  | .error (.otherError msg) => { result := .error (), dialog := some msg }

/-! ## Theorems -/

/-! ### C8: script error handling in `find_updates` -/

/-- C8: when executing the index script fails, `find_updates` returns an
error in every case; the error dialog is suppressed exactly when the error
is a callback error whose root cause formats as `BAIL OUT` (the sentinel
raised by `bail_out`); any other script error is first reported via
`do_error`. -/
theorem C8_script_error_handling (r : Except LuaError Unit) (e : LuaError)
    (h : r = .error e) :
    (handle_exec r).result = .error () ∧
    ((handle_exec r).dialog = none ↔ e = .callbackError BailOut_display) ∧
    (handle_exec (.error bail_out_raised)).dialog = none := by
  subst h
  refine ⟨?_, ?_, by simp [handle_exec, bail_out_raised]⟩
  · cases e with
    | callbackError cause => by_cases hc : cause = BailOut_display <;> simp [handle_exec, hc]
    | otherError msg => simp [handle_exec]
  · cases e with
    | callbackError cause => by_cases hc : cause = BailOut_display <;> simp [handle_exec, hc]
    | otherError msg => simp [handle_exec]

theorem C8_witness :
    (handle_exec (.error (.otherError "boom"))).result = .error () ∧
    ((handle_exec (.error (.otherError "boom"))).dialog = none ↔
      LuaError.otherError "boom" = .callbackError BailOut_display) ∧
    (handle_exec (.error bail_out_raised)).dialog = none :=
  C8_script_error_handling _ _ rfl

/-! ### C6: the local state differ -/

/-- Concrete differ inputs for the C6 witness: an identity "digest" and a
view on which the file is missing. -/
def sha0 : Bytes → Bytes := fun c => c

def view0 : FsPath → FileView := fun _ => { meta := .notFound, openOk := false, read := .error () }

def cat0 : Cat :=
  { src_url := "u", dst_path := ["f"], checksum := [1], size := 1, needs_download := false }

/-- C6: an entry entering the differ with `needs_download = false` leaves
with `needs_download = true` exactly when stat fails (not-found or
otherwise), the length differs from `entry.size`, opening or reading the
file fails, or the streamed digest differs from `entry.checksum`; the
differ itself still returns `Ok` (I/O errors are non-fatal), and the flag
is never cleared. -/
theorem C6_differ_marks (sha256 : Bytes → Bytes) (view : FsPath → FileView)
    (cats : List Cat) (cat : Cat) (h0 : cat.needs_download = false) :
    find_cat_statuses sha256 view cats = .ok (cats.map (updCat sha256 view)) ∧
    ((updCat sha256 view cat).needs_download = true ↔
      ((view cat.dst_path).meta = .notFound ∨ (view cat.dst_path).meta = .otherErr ∨
       (∃ len, (view cat.dst_path).meta = .found len ∧ len ≠ cat.size) ∨
       (view cat.dst_path).openOk = false ∨ (view cat.dst_path).read = .error () ∨
       (∃ c, (view cat.dst_path).read = .ok c ∧ sha256 c ≠ cat.checksum))) ∧
    (∀ e : Cat, e.needs_download = true → (updCat sha256 view e).needs_download = true) := by
  refine ⟨rfl, ?_, ?_⟩
  · rcases hv : view cat.dst_path with ⟨m, op, rd⟩
    simp only [updCat, h0, Bool.false_or, hv]
    rcases m with _ | _ | len
    · simp [catStatus]
    · simp [catStatus]
    · rcases op <;> rcases rd with e | c <;> by_cases hlen : len = cat.size <;>
        simp [catStatus, hlen]
  · intro e he
    simp [updCat, he]

theorem C6_witness :
    cat0.needs_download = false ∧
    (find_cat_statuses sha0 view0 [cat0] = .ok ([cat0].map (updCat sha0 view0)) ∧
    ((updCat sha0 view0 cat0).needs_download = true ↔
      ((view0 cat0.dst_path).meta = .notFound ∨ (view0 cat0.dst_path).meta = .otherErr ∨
       (∃ len, (view0 cat0.dst_path).meta = .found len ∧ len ≠ cat0.size) ∨
       (view0 cat0.dst_path).openOk = false ∨ (view0 cat0.dst_path).read = .error () ∨
       (∃ c, (view0 cat0.dst_path).read = .ok c ∧ sha0 c ≠ cat0.checksum))) ∧
    (∀ e : Cat, e.needs_download = true → (updCat sha0 view0 e).needs_download = true)) :=
  ⟨rfl, C6_differ_marks sha0 view0 [cat0] cat0 rfl⟩

/-! ### C4 and C5: short catalog bodies and short entries panic -/

/-- A concrete instantiation of the external collaborators, consistent
with the real libraries at every point where the theorems below evaluate
it: an injective stand-in digest, identity "decompression", ASCII UTF-8
decoding, and concatenation joins. -/
def env0 : Env :=
  { sha256 := fun c => c
    zlib := fun c => some c
    fromUtf8 := fun bs => if bs.all (· < 128) then some (String.mk (bs.map Char.ofNat)) else none
    joinUrl := fun u s => some (u ++ s)
    pathJoin := fun p s => p ++ [s] }

/-- C4: a one-byte catalog body (nonempty, shorter than 41 bytes) drives
`determine_tasks` into the out-of-bounds slice `&body[..5]`: the run
panics instead of reporting a format error to the UI. -/
theorem C4_short_body_panics :
    decode_catalog env0 "u" [] [0xFF] = .error .panic ∧
    CatalogError.panic ≠ .missing ∧ CatalogError.panic ≠ .invalid := by
  decide

/-- The shortest entry the parser guard admits: a one-byte path, the
newline, and only 41 further bytes (fewer than the 42 the fixed fields
need). -/
def c5bytes : Bytes := [97, 10] ++ List.replicate 41 0

/-- C5: `Cat::try_parse` on an entry with exactly 41 bytes after the
path-terminating newline passes the `newline > bytes.len() - 42` guard
and then reads `bytes[newline+41 .. newline+43]` out of bounds: it panics
instead of returning a parse error. -/
theorem C5_short_entry_panics :
    c5bytes.findIdx? (· == 10) = some 1 ∧
    c5bytes.length = 43 ∧
    c5bytes.length - (1 + 1) = 41 ∧
    Cat.try_parse env0 c5bytes "u" [] = .panic := by
  decide

/-! ### C10: what a successful `Cat::try_parse` guarantees -/

theorem slice?_eq_some {bytes out : Bytes} {a b : Nat} (h : slice? bytes a b = some out) :
    out = (bytes.drop a).take (b - a) := by
  unfold slice? at h
  split at h
  · exact (Option.some.injEq _ _ ▸ h).symm
  · exact absurd h (by simp)

/-- C10: whenever `Cat::try_parse` succeeds, the relative path is the
nonempty byte sequence before the first `0x0A`, it decodes as UTF-8
(`from_utf8` succeeded) and is not fishy, `src_url` is the catalog URL
joined with it, `dst_path` the base directory joined with it, `checksum`
the 32 bytes after the newline, `size` the following big-endian 64-bit
field, and `needs_download` is initially false. -/
theorem C10_try_parse_success (env : Env) (bytes : Bytes) (base_url : Url)
    (base_path : FsPath) (cat : Cat) (rest : Bytes)
    (h : Cat.try_parse env bytes base_url base_path = .ok cat rest) :
    ∃ newline s,
      bytes.findIdx? (· == 10) = some newline ∧ 0 < newline ∧
      env.fromUtf8 (bytes.take newline) = some s ∧
      is_fishy_path s = false ∧
      env.joinUrl base_url s = some cat.src_url ∧
      cat.dst_path = env.pathJoin base_path s ∧
      cat.checksum = (bytes.drop (newline + 1)).take 32 ∧
      cat.size = beNat ((bytes.drop (newline + 33)).take 8) ∧
      cat.needs_download = false := by
  unfold Cat.try_parse at h
  split at h
  · exact absurd h (by simp)
  next newline hfind =>
    refine ⟨newline, ?_⟩
    split at h
    · exact absurd h (by simp)
    next hnz =>
      split at h
      · exact absurd h (by simp)
      split at h
      · exact absurd h (by simp)
      next file_path hutf =>
        refine ⟨file_path, ?_⟩
        split at h
        · exact absurd h (by simp)
        next checksum hcs =>
          split at h
          · exact absurd h (by simp)
          next sizeBytes hsz =>
            split at h
            · exact absurd h (by simp)
            next xtBytes hxt =>
              simp only at h
              split at h
              · exact absurd h (by simp)
              split at h
              · exact absurd h (by simp)
              next hfishy =>
                split at h
                · exact absurd h (by simp)
                next src_url hjoin =>
                  have hcat : cat =
                      { src_url := src_url
                        dst_path := env.pathJoin base_path file_path
                        checksum := checksum
                        size := beNat sizeBytes
                        needs_download := false } := by
                    cases h; rfl
                  subst hcat
                  have hnl : 0 < newline := by
                    rcases Nat.eq_zero_or_pos newline with h0 | h0
                    · exact absurd (by simp [h0]) hnz
                    · exact h0
                  have hc32 : checksum = (bytes.drop (newline + 1)).take 32 := by
                    have := slice?_eq_some hcs
                    simpa using this
                  have hs8 : sizeBytes = (bytes.drop (newline + 33)).take 8 := by
                    have := slice?_eq_some hsz
                    simpa using this
                  exact ⟨hfind, hnl, hutf, Bool.not_eq_true _ ▸ (by simpa using hfishy),
                    hjoin, rfl, hc32, by rw [hs8], rfl⟩

/-- The entry bytes and the entry for the C10 witness: path `a`, a 44-byte
well-formed entry with a zero-length extension. -/
def w10bytes : Bytes :=
  [97, 10] ++ List.replicate 32 7 ++ [0, 0, 0, 0, 0, 0, 0, 5] ++ [0, 0]

def w10cat : Cat :=
  { src_url := "ua", dst_path := ["a"], checksum := List.replicate 32 7,
    size := 5, needs_download := false }

theorem C10_witness :
    ∃ newline s,
      w10bytes.findIdx? (· == 10) = some newline ∧ 0 < newline ∧
      env0.fromUtf8 (w10bytes.take newline) = some s ∧
      is_fishy_path s = false ∧
      env0.joinUrl "u" s = some w10cat.src_url ∧
      w10cat.dst_path = env0.pathJoin [] s ∧
      w10cat.checksum = (w10bytes.drop (newline + 1)).take 32 ∧
      w10cat.size = beNat ((w10bytes.drop (newline + 33)).take 8) ∧
      w10cat.needs_download = false :=
  C10_try_parse_success env0 w10bytes "u" [] w10cat [] (by decide)

/-! ### C9: the patience gate -/

theorem catchUp_ge (last now : Nat) : now ≤ catchUp last now := by
  generalize hk : now - last = k
  induction k using Nat.strong_induction_on generalizing last with
  | _ k ih =>
    rw [catchUp]
    by_cases h : last < now
    · simp only [if_pos h]
      exact ih (now - (last + UPDATE_INTERVAL))
        (by simp only [UPDATE_INTERVAL] at *; omega) (last + UPDATE_INTERVAL) rfl
    · simp only [if_neg h]; omega

theorem have_been_patient_true_state (st : Option Nat) (now : Nat) (st' : Option Nat)
    (h : have_been_patient st now = (true, st')) : ∃ l, st' = some l ∧ now ≤ l := by
  cases st with
  | none =>
    refine ⟨now, ?_, le_refl now⟩
    simpa [have_been_patient] using h.symm
  | some last =>
    simp only [have_been_patient] at h
    by_cases h1 : now < last
    · rw [if_pos h1] at h
      exact ⟨now, (Prod.mk.injEq _ _ _ _ ▸ h).2.symm, le_refl now⟩
    · rw [if_neg h1] at h
      by_cases h5 : now - last ≥ UPDATE_INTERVAL * 5
      · rw [if_pos h5] at h
        exact ⟨now, (Prod.mk.injEq _ _ _ _ ▸ h).2.symm, le_refl now⟩
      · rw [if_neg h5] at h
        by_cases hI : now - last ≥ UPDATE_INTERVAL
        · rw [if_pos hI] at h
          exact ⟨catchUp last now, (Prod.mk.injEq _ _ _ _ ▸ h).2.symm, catchUp_ge last now⟩
        · rw [if_neg hI] at h
          exact absurd (Prod.mk.injEq _ _ _ _ ▸ h).1 (by simp)

theorem have_been_patient_false_state (st : Option Nat) (now : Nat) (st' : Option Nat)
    (h : have_been_patient st now = (false, st')) : st' = st := by
  cases st with
  | none => simp [have_been_patient] at h
  | some last =>
    simp only [have_been_patient] at h
    by_cases h1 : now < last
    · rw [if_pos h1] at h; simp at h
    · rw [if_neg h1] at h
      by_cases h5 : now - last ≥ UPDATE_INTERVAL * 5
      · rw [if_pos h5] at h; simp at h
      · rw [if_neg h5] at h
        by_cases hI : now - last ≥ UPDATE_INTERVAL
        · rw [if_pos hI] at h; simp at h
        · rw [if_neg hI] at h
          exact (Prod.mk.injEq _ _ _ _ ▸ h).2.symm

theorem patRun_all_false_state (st : Option Nat) (ts : List Nat)
    (h : (patRun st ts).1.all (fun b => !b) = true) : (patRun st ts).2 = st := by
  induction ts generalizing st with
  | nil => rfl
  | cons t ts ih =>
    rcases hr : have_been_patient st t with ⟨b, st'⟩
    have hrun : patRun st (t :: ts) =
        ((have_been_patient st t).1 :: (patRun (have_been_patient st t).2 ts).1,
          (patRun (have_been_patient st t).2 ts).2) := rfl
    rw [hrun, hr] at h ⊢
    simp only [List.all_cons, Bool.and_eq_true] at h
    have hb : b = false := by
      rcases h with ⟨hb, _⟩
      cases b
      · rfl
      · exact absurd hb (by simp)
    subst hb
    rw [ih st' h.2, have_been_patient_false_state st t st' hr]

/-- C9 counterexample: with a monotone clock, calls at 0 ms, 300 ms and
350 ms all return true — the catch-up after the 300 ms call stores
`last = 400 ms`, so the 350 ms call takes the clock-went-backward branch —
yet only 50 ms < `INTERVAL` elapse between the last two `true`s. -/
theorem C9_counterexample :
    (patRun none [0, 300000000, 350000000]).1 = [true, true, true] ∧
    300000000 ≤ (350000000 : Nat) ∧
    350000000 - 300000000 < UPDATE_INTERVAL := by
  have hc : catchUp 0 300000000 = 400000000 := by
    rw [catchUp]
    norm_num [UPDATE_INTERVAL]
    rw [catchUp]
    norm_num [UPDATE_INTERVAL]
    rw [catchUp]
    norm_num [UPDATE_INTERVAL]
  refine ⟨?_, by norm_num, by norm_num [UPDATE_INTERVAL]⟩
  simp only [patRun, have_been_patient, UPDATE_INTERVAL, hc]
  norm_num

/-- C9 (amended): `have_been_patient` returns true on its very first
call; and between two consecutive calls that return true (only calls
returning false in between), at least `UPDATE_INTERVAL` elapses —
provided the clock does not go backward AND the later call's instant is
not earlier than the stored `last_time`, which the phase-locked catch-up
may have advanced up to `UPDATE_INTERVAL` beyond the earlier call's
instant. -/
theorem C9_amended (st0 : Option Nat) (now1 : Nat) (mids : List Nat) (now2 : Nat)
    (h1 : (have_been_patient st0 now1).1 = true)
    (hmid : ((patRun (have_been_patient st0 now1).2 mids).1).all (fun b => !b) = true)
    (hcarve : ∀ l, (have_been_patient st0 now1).2 = some l → l ≤ now2)
    (h2 : (have_been_patient ((patRun (have_been_patient st0 now1).2 mids).2) now2).1 = true) :
    (∀ n, (have_been_patient none n).1 = true) ∧
    now1 + UPDATE_INTERVAL ≤ now2 := by
  refine ⟨fun n => rfl, ?_⟩
  rcases hr : have_been_patient st0 now1 with ⟨b1, st1⟩
  rw [hr] at h1 hmid hcarve h2
  subst h1
  obtain ⟨l1, hl1, hnl1⟩ := have_been_patient_true_state st0 now1 st1 hr
  rw [patRun_all_false_state st1 mids hmid] at h2
  subst hl1
  have hle : l1 ≤ now2 := hcarve l1 rfl
  simp only [have_been_patient] at h2
  rw [if_neg (by omega)] at h2
  by_cases h5 : now2 - l1 ≥ UPDATE_INTERVAL * 5
  · simp only [UPDATE_INTERVAL] at h5 ⊢
    omega
  · rw [if_neg h5] at h2
    by_cases hI : now2 - l1 ≥ UPDATE_INTERVAL
    · simp only [UPDATE_INTERVAL] at hI ⊢
      omega
    · rw [if_neg hI] at h2
      exact absurd h2 (by simp)

theorem C9_witness :
    ((have_been_patient (none : Option Nat) 0).1 = true ∧
      ((patRun (have_been_patient (none : Option Nat) 0).2 [100000000]).1).all
        (fun b => !b) = true ∧
      (have_been_patient ((patRun (have_been_patient (none : Option Nat) 0).2
        [100000000]).2) 250000000).1 = true) ∧
    ((∀ n, (have_been_patient none n).1 = true) ∧
      0 + UPDATE_INTERVAL ≤ 250000000) :=
  ⟨⟨rfl, by decide, rfl⟩,
    C9_amended none 0 [100000000] 250000000 rfl (by decide)
      (fun l hl => by
        have h0 : l = 0 := by
          have : (some 0 : Option Nat) = some l := hl
          exact (Option.some.inj this).symm
        omega)
      rfl⟩

/-! ### C7: `detect_dir` -/

/-- The boolean outcome of one sense test (when it does not error). -/
def senseOkb (env : DetectEnv) (c g : String) : Bool :=
  match env.senseGlob c g with
  | .ok true => true
  | _ => false

/-- When `check_detected_dir` accepts a candidate: it is absolute and
every silhouette sense glob matches. -/
def accepts (env : DetectEnv) (sil : Option (List String)) (c : String) : Bool :=
  env.isAbsolute c && (sil.getD []).all (senseOkb env c)

theorem senseAll_total (env : DetectEnv) (c : String) (globs : List String)
    (hsense : ∀ g, ∃ b, env.senseGlob c g = .ok b) :
    senseAll env c globs = .ok (globs.all (senseOkb env c)) := by
  induction globs with
  | nil => rfl
  | cons g rest ih =>
    obtain ⟨b, hb⟩ := hsense g
    simp only [senseAll, hb, ih, List.all_cons]
    have : senseOkb env c g = b := by simp [senseOkb, hb]; cases b <;> simp
    rw [this]

theorem check_detected_dir_ok (env : DetectEnv) (dirs : Dirs) (var c : String)
    (sil : Option (List String)) (habs : env.isAbsolute c = true)
    (hsense : ∀ g, ∃ b, env.senseGlob c g = .ok b) :
    check_detected_dir env dirs var c sil =
      if accepts env sil c then .ok (true, (var, c) :: dirs) else .ok (false, dirs) := by
  simp only [check_detected_dir, habs, Bool.not_true, Bool.false_eq_true, if_false,
    senseAll_total env c (sil.getD []) hsense, accepts, Bool.true_and]

theorem detectLoop_spec (env : DetectEnv) (dirs : Dirs) (id : String)
    (cands : List String) (sil : Option (List String))
    (habs : ∀ c ∈ cands, env.isAbsolute c = true)
    (hsense : ∀ c g, ∃ b, env.senseGlob c g = .ok b) :
    detectLoop env dirs id cands sil =
      .ok (match cands.find? (accepts env sil) with
           | some c => (id, c) :: dirs
           | none => dirs) := by
  induction cands generalizing dirs with
  | nil => rfl
  | cons c rest ih =>
    have hc : env.isAbsolute c = true := habs c (by simp)
    rw [detectLoop, check_detected_dir_ok env dirs id c sil hc (hsense c)]
    by_cases ha : accepts env sil c = true
    · simp [ha, List.find?]
    · have ha' : accepts env sil c = false := by
        cases h : accepts env sil c
        · rfl
        · exact absurd h ha
      simp only [ha', if_false, Bool.false_eq_true]
      rw [ih dirs (fun x hx => habs x (by simp [hx]))]
      simp [List.find?, ha']

/-- C7: `detect_dir` returns unchanged if `id` is already registered;
otherwise it validates the environment variable named `id` first (when
set), then the iterator's candidates in yield order, registers the first
candidate that passes validation and stops; if no candidate is accepted
the registry slot stays unset, so a later `basedir(id)` fails.  (The
hypotheses say the sense predicate raises no glob syntax error and every
offered candidate is an absolute path; otherwise `detect_dir` aborts with
that error instead of continuing.) -/
theorem C7_detect_dir (env : DetectEnv) (dirs : Dirs) (id : String)
    (cands : List String) (sil : Option (List String))
    (hsense : ∀ c g, ∃ b, env.senseGlob c g = .ok b)
    (habs1 : ∀ w, env.envVar id = some w → env.isAbsolute w = true)
    (habs2 : ∀ c ∈ cands, env.isAbsolute c = true) :
    ((dirs.lookup id).isSome = true → detect_dir env dirs id cands sil = .ok dirs) ∧
    (dirs.lookup id = none →
      detect_dir env dirs id cands sil =
        .ok (match ((env.envVar id).toList ++ cands).find? (accepts env sil) with
             | some c => (id, c) :: dirs
             | none => dirs) ∧
      (((env.envVar id).toList ++ cands).find? (accepts env sil) = none →
        basedir dirs id = .error ())) := by
  constructor
  · intro hs
    simp [detect_dir, hs]
  · intro hn
    have hs : (dirs.lookup id).isSome = false := by simp [hn]
    refine ⟨?_, ?_⟩
    · rw [detect_dir]
      rw [hs]
      simp only [Bool.false_eq_true, if_false]
      cases he : env.envVar id with
      | none =>
        simp only [Option.toList, List.nil_append]
        exact detectLoop_spec env dirs id cands sil habs2 hsense
      | some w =>
        have hw : env.isAbsolute w = true := habs1 w he
        dsimp only
        rw [check_detected_dir_ok env dirs id w sil hw (hsense w)]
        by_cases ha : accepts env sil w = true
        · simp [ha, List.find?]
        · have ha' : accepts env sil w = false := by
            cases h : accepts env sil w
            · rfl
            · exact absurd h ha
          simp only [ha', if_false, Bool.false_eq_true]
          rw [detectLoop_spec env dirs id cands sil habs2 hsense]
          simp [List.find?, ha']
    · intro _
      simp [basedir, hn]

/-- Concrete detection environment for the C7 witness. -/
def env7 : DetectEnv :=
  { isAbsolute := fun s => "/".data.isPrefixOf s.data
    senseGlob := fun _ _ => .ok true
    envVar := fun _ => none }

theorem C7_witness :
    ((([] : Dirs).lookup "HOME").isSome = true →
      detect_dir env7 [] "HOME" ["/home"] none = .ok []) ∧
    (([] : Dirs).lookup "HOME" = none →
      detect_dir env7 [] "HOME" ["/home"] none =
        .ok (match ((env7.envVar "HOME").toList ++ ["/home"]).find? (accepts env7 none) with
             | some c => ("HOME", c) :: []
             | none => []) ∧
      (((env7.envVar "HOME").toList ++ ["/home"]).find? (accepts env7 none) = none →
        basedir [] "HOME" = .error ())) :=
  C7_detect_dir env7 [] "HOME" ["/home"] none
    (fun _ _ => ⟨true, rfl⟩)
    (fun w hw => by cases hw)
    (by decide)

/-! ### C3: deletion planning protects installs and their ancestors -/

theorem binary_search_found {dels : List FsPath} {p : FsPath} {i : Nat}
    (h : binary_search dels p = some i) : ∃ hi : i < dels.length, dels[i] = p := by
  unfold binary_search at h
  rw [List.findIdx?_eq_some_iff_findIdx_eq] at h
  obtain ⟨hlt, hidx⟩ := h
  refine ⟨hlt, ?_⟩
  have := @List.findIdx_getElem _ (fun el => el == p) dels (hidx ▸ hlt)
  simp only [beq_iff_eq] at this
  calc dels[i] = dels[List.findIdx (fun el => el == p) dels] := by
        congr 1
        exact hidx.symm
    _ = p := this

theorem binary_search_not_found {dels : List FsPath} {p : FsPath}
    (h : binary_search dels p = none) : p ∉ dels := by
  unfold binary_search at h
  rw [List.findIdx?_eq_none_iff] at h
  intro hmem
  have := h p hmem
  simp at this

theorem removeFound_not_mem {dels : List FsPath} {p : FsPath} (hnd : dels.Nodup) :
    p ∉ removeFound dels p := by
  unfold removeFound
  cases h : binary_search dels p with
  | none => exact binary_search_not_found h
  | some i =>
    intro hmem
    rw [List.mem_eraseIdx_iff_getElem?] at hmem
    obtain ⟨j, hji, hj⟩ := hmem
    obtain ⟨hjl, hjp⟩ := List.getElem?_eq_some_iff.mp hj
    obtain ⟨hil, hip⟩ := binary_search_found h
    exact hji ((hnd.getElem_inj_iff).mp (hjp.trans hip.symm))

theorem removeFound_sublist (dels : List FsPath) (p : FsPath) :
    (removeFound dels p).Sublist dels := by
  unfold removeFound
  cases binary_search dels p with
  | none => exact List.Sublist.refl dels
  | some i => exact List.eraseIdx_sublist dels i

theorem removeFound_nodup {dels : List FsPath} (p : FsPath) (hnd : dels.Nodup) :
    (removeFound dels p).Nodup :=
  List.Nodup.sublist (removeFound_sublist dels p) hnd

theorem trimChain_sublist (dels : List FsPath) (d : FsPath) :
    (trimChain dels d).Sublist dels := by
  generalize hk : d.length = k
  induction k using Nat.strong_induction_on generalizing dels d with
  | _ k ih =>
    rw [trimChain]
    by_cases hd : d = []
    · simp only [dif_pos hd]
      exact removeFound_sublist dels d
    · simp only [dif_neg hd]
      have hlt : d.dropLast.length < k := by
        subst hk
        simp only [List.length_dropLast]
        exact Nat.sub_lt (List.length_pos.mpr hd) one_pos
      exact (ih d.dropLast.length hlt (removeFound dels d) d.dropLast rfl).trans
        (removeFound_sublist dels d)

theorem trimChain_nodup {dels : List FsPath} (d : FsPath) (hnd : dels.Nodup) :
    (trimChain dels d).Nodup :=
  List.Nodup.sublist (trimChain_sublist dels d) hnd

theorem prefix_dropLast {p d : FsPath} (h : p <+: d) (hne : p ≠ d) : p <+: d.dropLast := by
  obtain ⟨t, ht⟩ := h
  cases t with
  | nil => exact absurd (by simpa using ht) hne
  | cons x xs =>
    rw [← ht, List.dropLast_append_of_ne_nil _ (by simp)]
    exact List.prefix_append p _

theorem trimChain_no_prefix (dels : List FsPath) (d p : FsPath) (hnd : dels.Nodup)
    (hp : p <+: d) : p ∉ trimChain dels d := by
  generalize hk : d.length = k
  induction k using Nat.strong_induction_on generalizing dels d with
  | _ k ih =>
    rw [trimChain]
    by_cases hd : d = []
    · subst hd
      have hp0 : p = [] := List.prefix_nil.mp hp
      subst hp0
      simp only [dif_pos rfl]
      exact removeFound_not_mem hnd
    · simp only [dif_neg hd]
      have hlt : d.dropLast.length < k := by
        subst hk
        simp only [List.length_dropLast]
        exact Nat.sub_lt (List.length_pos.mpr hd) one_pos
      by_cases hpd : p = d
      · subst hpd
        intro hmem
        exact removeFound_not_mem hnd
          (List.Sublist.mem hmem (trimChain_sublist (removeFound dels p) p.dropLast))
      · exact ih d.dropLast.length hlt (removeFound dels d) d.dropLast
          (removeFound_nodup d hnd) (prefix_dropLast hp hpd) rfl

theorem trim_deletions_sublist (cats : List Cat) (dels : List FsPath) :
    (trim_deletions cats dels).Sublist dels := by
  induction cats generalizing dels with
  | nil => exact List.Sublist.refl dels
  | cons c rest ih =>
    have h1 : trim_deletions (c :: rest) dels = trim_deletions rest (trimChain dels c.dst_path) := rfl
    rw [h1]
    exact (ih (trimChain dels c.dst_path)).trans (trimChain_sublist dels c.dst_path)

theorem trim_deletions_no_prefix (cats : List Cat) (dels : List FsPath)
    (hnd : dels.Nodup) (e : Cat) (he : e ∈ cats) (p : FsPath)
    (hp : p ∈ trim_deletions cats dels) : ¬ p <+: e.dst_path := by
  induction cats generalizing dels with
  | nil => cases he
  | cons c rest ih =>
    have h1 : trim_deletions (c :: rest) dels = trim_deletions rest (trimChain dels c.dst_path) := rfl
    rw [h1] at hp
    rcases List.mem_cons.mp he with rfl | he'
    · intro hpre
      exact trimChain_no_prefix dels e.dst_path p hnd hpre
        (List.Sublist.mem hp (trim_deletions_sublist rest (trimChain dels e.dst_path)))
    · exact ih (trimChain dels c.dst_path) (trimChain_nodup c.dst_path hnd) he' hp

theorem chain'_and {α : Type} {R S : α → α → Prop} {l : List α}
    (hR : l.Chain' R) (hS : l.Chain' S) : l.Chain' (fun a b => R a b ∧ S a b) := by
  induction l with
  | nil => exact List.chain'_nil
  | cons a l ih =>
    cases l with
    | nil => exact List.chain'_singleton a
    | cons b m =>
      rw [List.chain'_cons] at hR hS ⊢
      exact ⟨⟨hR.1, hS.1⟩, ih hR.2 hS.2⟩

/-- After `sort_by` and `dedup_by`, the deletion list has no duplicates at
all: the sort makes equal paths adjacent, and the dedup removes adjacent
equals. -/
theorem planned_deletions_nodup (walked : List FsPath) :
    (dedupAdjacent (sortPaths walked)).Nodup := by
  have hsorted : (sortPaths walked).Sorted (· ≤ ·) := List.sorted_insertionSort _ _
  have hchainNe : (dedupAdjacent (sortPaths walked)).Chain' (· ≠ ·) :=
    List.destutter_is_chain' _ _
  have hsorted' : (dedupAdjacent (sortPaths walked)).Sorted (· ≤ ·) :=
    List.Pairwise.sublist (List.destutter_sublist _ _) hsorted
  have hlt : (dedupAdjacent (sortPaths walked)).Chain' (· < ·) :=
    List.Chain'.imp (fun a b hab => lt_of_le_of_ne hab.1 hab.2)
      (chain'_and hsorted'.chain' hchainNe)
  have hpw : (dedupAdjacent (sortPaths walked)).Pairwise (· < ·) :=
    List.chain'_iff_pairwise.mp hlt
  exact hpw.imp (fun hab => ne_of_lt hab)

/-- C3: after deletion planning — lexicographic sort, adjacent
deduplication, then trimming — the deletion list contains no path `p`
with `e.dst_path = p` or `e.dst_path` a strict descendant of `p` for any
catalog entry `e`: every `dst_path` and every ancestor of a `dst_path`
has been removed. -/
theorem C3_deletion_planning (walked : List FsPath) (cats : List Cat)
    (p : FsPath) (hp : p ∈ trim_deletions cats (dedupAdjacent (sortPaths walked)))
    (e : Cat) (he : e ∈ cats) :
    ¬ (e.dst_path = p ∨ p <+: e.dst_path) := by
  intro hbad
  have hpre : p <+: e.dst_path := by
    rcases hbad with h | h
    · rw [h]
    · exact h
  exact trim_deletions_no_prefix cats _ (planned_deletions_nodup walked) e he p hp hpre

theorem C3_witness :
    ["x"] ∈ trim_deletions [cat0] (dedupAdjacent (sortPaths [["x"]])) ∧
    ¬ (cat0.dst_path = ["x"] ∨ ["x"] <+: cat0.dst_path) := by
  have hmem : ["x"] ∈ trim_deletions [cat0] (dedupAdjacent (sortPaths [["x"]])) := by
    have hsd : dedupAdjacent (sortPaths [["x"]]) = [["x"]] := rfl
    have htrim : trim_deletions [cat0] [["x"]] = [["x"]] := by
      simp only [trim_deletions, List.foldl_cons, List.foldl_nil, cat0]
      simp +decide [trimChain, removeFound, binary_search]
    rw [hsd, htrim]
    simp
  exact ⟨hmem, C3_deletion_planning [["x"]] [cat0] ["x"] hmem cat0 (by simp)⟩

/-! ### C2: the download phase -/

theorem dlLoop_recv (p : FsPath) (size : Nat) :
    ∀ (chunks : List Chunk) (fs : Fs) (recvd : Nat) (got : Bytes),
      (dlLoop p size fs recvd got chunks).2 = recvLoop size recvd got chunks := by
  intro chunks
  induction chunks with
  | nil =>
    intro fs recvd got
    by_cases h : recvd ≤ size <;> simp [dlLoop, recvLoop, h]
  | cons c rest ih =>
    intro fs recvd got
    by_cases h : recvd ≤ size <;> simp [dlLoop, recvLoop, h, ih]

theorem perform_downloads_gets (sha256 : Bytes → Bytes) (server : Url → Option (List Chunk)) :
    ∀ (cats : List Cat) (fs : Fs), ∀ u ∈ (perform_downloads sha256 server fs cats).2,
      ∃ e ∈ cats, e.needs_download = true ∧ e.src_url = u := by
  intro cats
  induction cats with
  | nil => intro fs u hu; simp [perform_downloads] at hu
  | cons cat rest ih =>
    intro fs u hu
    by_cases hn : cat.needs_download = false
    · rw [perform_downloads, if_pos hn] at hu
      obtain ⟨e, he, hne, heu⟩ := ih fs u hu
      exact ⟨e, by simp [he], hne, heu⟩
    · have hn' : cat.needs_download = true := by
        cases h : cat.needs_download
        · exact absurd h hn
        · rfl
      rw [perform_downloads, if_neg hn] at hu
      cases hs : server cat.src_url with
      | none =>
        rw [hs] at hu
        simp only [List.mem_singleton] at hu
        exact ⟨cat, by simp, hn', hu.symm⟩
      | some chunks =>
        rw [hs] at hu
        simp only at hu
        split at hu
        · simp only [List.mem_singleton] at hu
          exact ⟨cat, by simp, hn', hu.symm⟩
        · simp only [List.mem_cons] at hu
          rcases hu with rfl | hu
          · exact ⟨cat, by simp, hn', rfl⟩
          · obtain ⟨e, he, hne, heu⟩ := ih _ u hu
            exact ⟨e, by simp [he], hne, heu⟩

theorem perform_downloads_ok (sha256 : Bytes → Bytes) (server : Url → Option (List Chunk)) :
    ∀ (cats : List Cat) (fs fs' : Fs),
      (perform_downloads sha256 server fs cats).1 = .ok fs' →
      ∀ e ∈ cats, e.needs_download = true →
        ∃ chunks, server e.src_url = some chunks ∧ downloadOk sha256 e chunks := by
  intro cats
  induction cats with
  | nil => intro fs fs' _ e he; cases he
  | cons cat rest ih =>
    intro fs fs' hok e he hne
    by_cases hn : cat.needs_download = false
    · rw [perform_downloads, if_pos hn] at hok
      rcases List.mem_cons.mp he with rfl | he'
      · rw [hne] at hn; cases hn
      · exact ih fs fs' hok e he' hne
    · rw [perform_downloads, if_neg hn] at hok
      cases hs : server cat.src_url with
      | none => rw [hs] at hok; cases hok
      | some chunks =>
        rw [hs] at hok
        simp only at hok
        split at hok
        · cases hok
        next hcheck =>
          rcases List.mem_cons.mp he with rfl | he'
          · refine ⟨chunks, hs, ?_⟩
            rw [not_or] at hcheck
            obtain ⟨hsum, hcount⟩ := hcheck
            rw [not_not] at hsum hcount
            rw [dlLoop_recv] at hsum hcount
            exact ⟨by simpa using hsum, by simpa using hcount⟩
          · exact ih _ fs' hok e he' hne

theorem perform_downloads_corrupt (sha256 : Bytes → Bytes) (server : Url → Option (List Chunk)) :
    ∀ (cats : List Cat) (fs : Fs),
      (∀ e ∈ cats, e.needs_download = true → (server e.src_url).isSome = true) →
      (∃ e ∈ cats, e.needs_download = true ∧
        ∀ chunks, server e.src_url = some chunks → ¬ downloadOk sha256 e chunks) →
      (perform_downloads sha256 server fs cats).1 = .error .corrupted := by
  intro cats
  induction cats with
  | nil => intro fs _ hex; simp at hex
  | cons cat rest ih =>
    intro fs hsrv hex
    by_cases hn : cat.needs_download = false
    · rw [perform_downloads, if_pos hn]
      obtain ⟨e, he, hne, hbad⟩ := hex
      rcases List.mem_cons.mp he with rfl | he'
      · rw [hne] at hn; cases hn
      · exact ih fs (fun e' he'' => hsrv e' (by simp [he''])) ⟨e, he', hne, hbad⟩
    · have hn' : cat.needs_download = true := by
        cases h : cat.needs_download
        · exact absurd h hn
        · rfl
      rw [perform_downloads, if_neg hn]
      have hs' := hsrv cat (by simp) hn'
      cases hs : server cat.src_url with
      | none => rw [hs] at hs'; cases hs'
      | some chunks =>
        simp only
        by_cases hdl : downloadOk sha256 cat chunks
        · rw [if_neg ?hguard]
          case hguard =>
            rw [not_or, not_not, not_not, dlLoop_recv]
            exact ⟨by simpa using hdl.1, by simpa using hdl.2⟩
          obtain ⟨e, he, hne, hbad⟩ := hex
          rcases List.mem_cons.mp he with rfl | he'
          · exact absurd hdl (hbad chunks hs)
          · exact ih _ (fun e' he'' => hsrv e' (by simp [he''])) ⟨e, he', hne, hbad⟩
        · rw [if_pos ?hguard]
          case hguard =>
            by_contra hno
            rw [not_or, not_not, not_not, dlLoop_recv] at hno
            exact hdl ⟨by simpa using hno.1, by simpa using hno.2⟩

/-- C2: the download phase issues a GET only for entries with
`needs_download` set; it returns success only if every such entry's
rolling digest equals `entry.checksum` and its received byte count equals
`entry.size`; and when every needed URL is served but some needed entry's
body fails that verification, the phase reports corruption (the
"Update failed … corrupted" `do_error`) and returns an error, aborting
the run. -/
theorem C2_download_phase (sha256 : Bytes → Bytes) (server : Url → Option (List Chunk))
    (fs : Fs) (cats : List Cat) :
    (∀ u ∈ (perform_downloads sha256 server fs cats).2,
       ∃ e ∈ cats, e.needs_download = true ∧ e.src_url = u) ∧
    (∀ fs', (perform_downloads sha256 server fs cats).1 = .ok fs' →
       ∀ e ∈ cats, e.needs_download = true →
         ∃ chunks, server e.src_url = some chunks ∧ downloadOk sha256 e chunks) ∧
    ((∀ e ∈ cats, e.needs_download = true → (server e.src_url).isSome = true) →
     (∃ e ∈ cats, e.needs_download = true ∧
        ∀ chunks, server e.src_url = some chunks → ¬ downloadOk sha256 e chunks) →
     (perform_downloads sha256 server fs cats).1 = .error .corrupted) :=
  ⟨perform_downloads_gets sha256 server cats fs,
    fun fs' hok => perform_downloads_ok sha256 server cats fs fs' hok,
    fun hsrv hex => perform_downloads_corrupt sha256 server cats fs hsrv hex⟩

/-- An entry whose served body is corrupt, for the C2 witness. -/
def catB : Cat :=
  { src_url := "uB", dst_path := ["f"], checksum := [2], size := 1, needs_download := true }

def server2 : Url → Option (List Chunk) := fun u => if u = "uB" then some [[9]] else none

theorem C2_witness :
    (∀ u ∈ (perform_downloads sha0 server2 [] [catB]).2,
       ∃ e ∈ [catB], e.needs_download = true ∧ e.src_url = u) ∧
    (perform_downloads sha0 server2 [] [catB]).1 = .error .corrupted := by
  refine ⟨(C2_download_phase sha0 server2 [] [catB]).1, ?_⟩
  refine (C2_download_phase sha0 server2 [] [catB]).2.2 (by decide) ?_
  refine ⟨catB, by simp, rfl, ?_⟩
  intro chunks hch
  have hc : chunks = [[9]] := by simpa [server2, catB] using hch.symm
  subst hc
  unfold downloadOk
  decide

/-! ### C1: file integrity after a successful run -/

theorem fsGet_fsSet_self (fs : Fs) (p : FsPath) (c : Bytes) :
    fsGet (fsSet fs p c) p = some c := by
  simp [fsGet, fsSet, List.find?]

theorem fsGet_fsSet_ne (fs : Fs) (p q : FsPath) (c : Bytes) (h : q ≠ p) :
    fsGet (fsSet fs p c) q = fsGet fs q := by
  simp only [fsGet, fsSet, List.find?]
  have : (p == q) = false := by
    simp only [beq_eq_false_iff_ne]
    exact fun hpq => h hpq.symm
  simp [this]

theorem dlLoop_fs_ne (p q : FsPath) (size : Nat) (h : q ≠ p) :
    ∀ (chunks : List Chunk) (fs : Fs) (recvd : Nat) (got : Bytes),
      fsGet (dlLoop p size fs recvd got chunks).1 q = fsGet fs q := by
  intro chunks
  induction chunks with
  | nil =>
    intro fs recvd got
    by_cases hle : recvd ≤ size <;> simp [dlLoop, hle]
  | cons c rest ih =>
    intro fs recvd got
    by_cases hle : recvd ≤ size
    · simp only [dlLoop, if_pos hle]
      rw [ih (fsSet fs p (got ++ c)) (recvd + c.length) (got ++ c)]
      exact fsGet_fsSet_ne fs p q (got ++ c) h
    · simp [dlLoop, hle]

theorem dlLoop_fs_self (p : FsPath) (size : Nat) :
    ∀ (chunks : List Chunk) (fs : Fs) (recvd : Nat) (got : Bytes),
      fsGet fs p = some got →
      fsGet (dlLoop p size fs recvd got chunks).1 p =
        some (dlLoop p size fs recvd got chunks).2.2 := by
  intro chunks
  induction chunks with
  | nil =>
    intro fs recvd got hg
    by_cases hle : recvd ≤ size <;> simpa [dlLoop, hle] using hg
  | cons c rest ih =>
    intro fs recvd got hg
    by_cases hle : recvd ≤ size
    · simp only [dlLoop, if_pos hle]
      exact ih (fsSet fs p (got ++ c)) (recvd + c.length) (got ++ c)
        (fsGet_fsSet_self fs p (got ++ c))
    · simpa [dlLoop, hle] using hg

theorem recvLoop_len (size : Nat) :
    ∀ (chunks : List Chunk) (recvd : Nat) (got : Bytes), got.length = recvd →
      (recvLoop size recvd got chunks).2.length = (recvLoop size recvd got chunks).1 := by
  intro chunks
  induction chunks with
  | nil =>
    intro recvd got hg
    by_cases hle : recvd ≤ size <;> simpa [recvLoop, hle] using hg
  | cons c rest ih =>
    intro recvd got hg
    by_cases hle : recvd ≤ size
    · simp only [recvLoop, if_pos hle]
      exact ih (recvd + c.length) (got ++ c) (by simp [hg])
    · simpa [recvLoop, hle] using hg

theorem perform_downloads_frame (sha256 : Bytes → Bytes) (server : Url → Option (List Chunk)) :
    ∀ (cats : List Cat) (fs fs' : Fs) (q : FsPath),
      (perform_downloads sha256 server fs cats).1 = .ok fs' →
      (∀ e ∈ cats, e.needs_download = true → e.dst_path ≠ q) →
      fsGet fs' q = fsGet fs q := by
  intro cats
  induction cats with
  | nil =>
    intro fs fs' q hok _
    simp only [perform_downloads] at hok
    cases hok
    rfl
  | cons cat rest ih =>
    intro fs fs' q hok hne
    by_cases hn : cat.needs_download = false
    · rw [perform_downloads, if_pos hn] at hok
      exact ih fs fs' q hok (fun e he => hne e (by simp [he]))
    · have hn' : cat.needs_download = true := by
        cases h : cat.needs_download
        · exact absurd h hn
        · rfl
      rw [perform_downloads, if_neg hn] at hok
      cases hs : server cat.src_url with
      | none => rw [hs] at hok; cases hok
      | some chunks =>
        rw [hs] at hok
        simp only at hok
        split at hok
        · cases hok
        · have hq : cat.dst_path ≠ q := hne cat (by simp) hn'
          have h1 := ih _ fs' q hok (fun e he => hne e (by simp [he]))
          rw [h1, dlLoop_fs_ne cat.dst_path q cat.size (fun h => hq h.symm),
            fsGet_fsSet_ne fs cat.dst_path q [] (fun h => hq h.symm)]

theorem perform_downloads_post (sha256 : Bytes → Bytes) (server : Url → Option (List Chunk)) :
    ∀ (cats : List Cat) (fs fs' : Fs),
      ((cats.map (·.dst_path)).Nodup) →
      (perform_downloads sha256 server fs cats).1 = .ok fs' →
      ∀ e ∈ cats, e.needs_download = true →
        ∃ body, fsGet fs' e.dst_path = some body ∧
          sha256 body = e.checksum ∧ body.length = e.size := by
  intro cats
  induction cats with
  | nil => intro fs fs' _ _ e he; cases he
  | cons cat rest ih =>
    intro fs fs' hnd hok e he hne
    have hnd' : (rest.map (·.dst_path)).Nodup := (List.nodup_cons.mp hnd).2
    have hhd : cat.dst_path ∉ rest.map (·.dst_path) := (List.nodup_cons.mp hnd).1
    by_cases hn : cat.needs_download = false
    · rw [perform_downloads, if_pos hn] at hok
      rcases List.mem_cons.mp he with rfl | he'
      · rw [hne] at hn; cases hn
      · exact ih fs fs' hnd' hok e he' hne
    · rw [perform_downloads, if_neg hn] at hok
      cases hs : server cat.src_url with
      | none => rw [hs] at hok; cases hok
      | some chunks =>
        rw [hs] at hok
        simp only at hok
        split at hok
        · cases hok
        next hcheck =>
          rw [not_or, not_not, not_not] at hcheck
          obtain ⟨hsum, hcount⟩ := hcheck
          rcases List.mem_cons.mp he with rfl | he'
          · -- the entry just downloaded: its file holds the verified body
            have hself : fsGet (dlLoop e.dst_path e.size (fsSet fs e.dst_path []) 0 [] chunks).1
                e.dst_path =
                some (dlLoop e.dst_path e.size (fsSet fs e.dst_path []) 0 [] chunks).2.2 :=
              dlLoop_fs_self e.dst_path e.size chunks (fsSet fs e.dst_path []) 0 []
                (fsGet_fsSet_self fs e.dst_path [])
            have hframe := perform_downloads_frame sha256 server rest _ fs' e.dst_path hok
              (fun e' he'' hne'' heq =>
                hhd (heq ▸ List.mem_map_of_mem (·.dst_path) he''))
            refine ⟨(dlLoop e.dst_path e.size (fsSet fs e.dst_path []) 0 [] chunks).2.2,
              by rw [hframe, hself], ?_, ?_⟩
            · exact hsum
            · rw [dlLoop_recv]
              rw [dlLoop_recv] at hcount
              exact (recvLoop_len e.size chunks 0 [] rfl).trans hcount
          · exact ih _ fs' hnd' hok e he' hne

theorem fsGet_filter (fs : Fs) (P : FsPath → Bool) (d : FsPath) (hd : P d = true) :
    fsGet (fs.filter (fun e => P e.1)) d = fsGet fs d := by
  induction fs with
  | nil => rfl
  | cons e rest ih =>
    by_cases hk : e.1 = d
    · have hPe : P e.1 = true := hk ▸ hd
      simp only [List.filter_cons, hPe, if_pos]
      simp only [fsGet, List.find?, hk, beq_self_eq_true]
    · by_cases hPe : P e.1 = true
      · simp only [List.filter_cons, hPe, if_pos]
        simp only [fsGet, List.find?] at ih ⊢
        have : (e.1 == d) = false := by simpa using hk
        rw [this]
        exact ih
      · have hPe' : P e.1 = false := by
          cases h : P e.1
          · rfl
          · exact absurd h hPe
        simp only [List.filter_cons, hPe', Bool.false_eq_true, if_false]
        rw [ih]
        simp only [fsGet, List.find?]
        have : (e.1 == d) = false := by simpa using hk
        rw [this]

theorem perform_deletions_frame :
    ∀ (dels : List FsPath) (fs fs' : Fs) (d : FsPath),
      perform_deletions fs dels = .ok fs' →
      (∀ p ∈ dels, ¬ p <+: d) →
      fsGet fs' d = fsGet fs d := by
  intro dels
  induction dels with
  | nil =>
    intro fs fs' d hok _
    simp only [perform_deletions] at hok
    cases hok
    rfl
  | cons p rest ih =>
    intro fs fs' d hok hnp
    have hpd : ¬ p <+: d := hnp p (by simp)
    have hne : p ≠ d := fun h => hpd (h ▸ List.prefix_refl d)
    rw [perform_deletions] at hok
    split at hok
    · -- remove_file p
      rw [ih _ fs' d hok (fun q hq => hnp q (by simp [hq]))]
      exact fsGet_filter fs (fun q => !(q == p)) d (by simpa using fun h => hne h.symm)
    · split at hok
      · -- remove_dir_all p
        rw [ih _ fs' d hok (fun q hq => hnp q (by simp [hq]))]
        refine fsGet_filter fs (fun q => !(p.isPrefixOf q)) d ?_
        simp only [Bool.not_eq_true', ← Bool.not_eq_true]
        intro hpre
        exact hpd (List.isPrefixOf_iff_prefix.mp hpre)
      · -- not found: skip
        exact ih fs fs' d hok (fun q hq => hnp q (by simp [hq]))

theorem updCat_false (sha256 : Bytes → Bytes) (fs : Fs) (cat : Cat)
    (h : (updCat sha256 (viewOfFs fs) cat).needs_download = false) :
    ∃ content, fsGet fs cat.dst_path = some content ∧
      sha256 content = cat.checksum ∧ content.length = cat.size := by
  simp only [updCat, Bool.or_eq_false_iff] at h
  obtain ⟨-, hstat⟩ := h
  cases hg : fsGet fs cat.dst_path with
  | none =>
    rw [catStatus, viewOfFs, hg] at hstat
    cases hstat
  | some content =>
    refine ⟨content, rfl, ?_, ?_⟩
    · rw [catStatus, viewOfFs, hg] at hstat
      simp only at hstat
      split at hstat
      · cases hstat
      · split at hstat
        · cases hstat
        · simpa using hstat
    · rw [catStatus, viewOfFs, hg] at hstat
      simp only at hstat
      split at hstat
      · cases hstat
      next hlen => simpa using hlen

/-- C1 (amended): provided no two catalog entries share a `dst_path`,
every entry whose `dst_path` exists on disk after a run that returns the
success exit code has the digest of its file content equal to
`entry.checksum` and the content length equal to `entry.size`. -/
theorem C1_success_integrity (sha256 : Bytes → Bytes) (server : Url → Option (List Chunk))
    (fs : Fs) (cats : List Cat) (walked : List FsPath)
    (hnd : (cats.map (·.dst_path)).Nodup) (fs' : Fs)
    (hrun : real_main sha256 server fs cats walked = some fs')
    (cat : Cat) (hmem : cat ∈ cats) (content : Bytes)
    (hget : fsGet fs' cat.dst_path = some content) :
    sha256 content = cat.checksum ∧ content.length = cat.size := by
  have hdstmap :
      ((cats.map (updCat sha256 (viewOfFs fs))).map (·.dst_path)) = cats.map (·.dst_path) := by
    rw [List.map_map]
    rfl
  rw [real_main, find_cat_statuses] at hrun
  simp only at hrun
  rcases hpd : perform_downloads sha256 server fs (cats.map (updCat sha256 (viewOfFs fs)))
    with ⟨r, trace⟩
  rw [hpd] at hrun
  cases r with
  | error e => simp at hrun
  | ok fs2 =>
    simp only at hrun
    cases hdel : perform_deletions fs2
        (trim_deletions (cats.map (updCat sha256 (viewOfFs fs)))
          (dedupAdjacent (sortPaths walked))) with
    | error e => rw [hdel] at hrun; simp at hrun
    | ok fs3 =>
      rw [hdel] at hrun
      simp only at hrun
      have hfs3 : fs3 = fs' := Option.some.inj hrun
      subst hfs3
      have hmem2 : updCat sha256 (viewOfFs fs) cat ∈ cats.map (updCat sha256 (viewOfFs fs)) :=
        List.mem_map_of_mem _ hmem
      have hframe3 : fsGet fs3 cat.dst_path = fsGet fs2 cat.dst_path := by
        refine perform_deletions_frame _ fs2 fs3 _ hdel ?_
        intro p hp
        exact trim_deletions_no_prefix _ _ (planned_deletions_nodup walked)
          (updCat sha256 (viewOfFs fs) cat) hmem2 p hp
      by_cases hneed : (updCat sha256 (viewOfFs fs) cat).needs_download = true
      · obtain ⟨body, hb, hbs, hbl⟩ := perform_downloads_post sha256 server
          (cats.map (updCat sha256 (viewOfFs fs))) fs fs2 (hdstmap ▸ hnd)
          (by rw [hpd]) (updCat sha256 (viewOfFs fs) cat) hmem2 hneed
        have hb' : fsGet fs2 cat.dst_path = some body := hb
        rw [hframe3, hb'] at hget
        have hbody : body = content := Option.some.inj hget
        subst hbody
        exact ⟨hbs, hbl⟩
      · have hfalse : (updCat sha256 (viewOfFs fs) cat).needs_download = false := by
          cases h : (updCat sha256 (viewOfFs fs) cat).needs_download
          · rfl
          · exact absurd h hneed
        obtain ⟨c0, hc0, hcs, hcl⟩ := updCat_false sha256 fs cat hfalse
        have hframe2 : fsGet fs2 cat.dst_path = fsGet fs cat.dst_path := by
          refine perform_downloads_frame sha256 server _ fs fs2 _ (by rw [hpd]) ?_
          intro e he hneede heq
          obtain ⟨c', hc', rfl⟩ := List.mem_map.mp he
          have hdst : c'.dst_path = cat.dst_path := heq
          have hc'cat : c' = cat :=
            List.inj_on_of_nodup_map hnd hc' hmem hdst
          subst hc'cat
          rw [hneede] at hfalse
          cases hfalse
        rw [hframe3, hframe2, hc0] at hget
        have hce : c0 = content := Option.some.inj hget
        subst hce
        exact ⟨hcs, hcl⟩

theorem trimChain_nil (d : FsPath) : trimChain [] d = [] := by
  generalize hk : d.length = k
  induction k using Nat.strong_induction_on generalizing d with
  | _ k ih =>
    rw [trimChain]
    by_cases hd : d = []
    · simp only [dif_pos hd]
      rfl
    · simp only [dif_neg hd]
      have h1 : removeFound [] d = [] := rfl
      rw [h1]
      have hlt : d.dropLast.length < k := by
        subst hk
        simp only [List.length_dropLast]
        exact Nat.sub_lt (List.length_pos.mpr hd) one_pos
      exact ih d.dropLast.length hlt d.dropLast rfl

theorem trim_deletions_nil (cats : List Cat) : trim_deletions cats [] = [] := by
  induction cats with
  | nil => rfl
  | cons c rest ih =>
    have h1 : trim_deletions (c :: rest) [] = trim_deletions rest (trimChain [] c.dst_path) := rfl
    rw [h1, trimChain_nil]
    exact ih

/-- Entries and state for the C1 counterexample: two entries share the
`dst_path` `["f"]` with different checksums; the on-disk file matches the
first. -/
def catA : Cat :=
  { src_url := "uA", dst_path := ["f"], checksum := [1], size := 1, needs_download := false }

def catB1 : Cat :=
  { src_url := "uB", dst_path := ["f"], checksum := [2], size := 1, needs_download := false }

def server1 : Url → Option (List Chunk) := fun u => if u = "uB" then some [[2]] else none

def finalFs1 : Fs := [(["f"], [2]), (["f"], []), (["f"], [1])]

/-- C1 counterexample: the run succeeds — the differ leaves `catA` alone
(its file matches) and re-downloads `catB1`, whose verified body
overwrites the shared `dst_path` — yet afterwards the file at
`catA.dst_path` exists with digest `[2] ≠ catA.checksum`.  The claim as
stated is false when two entries share a `dst_path`. -/
theorem C1_counterexample :
    real_main sha0 server1 [(["f"], [1])] [catA, catB1] [] = some finalFs1 ∧
    catA ∈ [catA, catB1] ∧
    fsGet finalFs1 catA.dst_path = some [2] ∧
    ¬ (sha0 [2] = catA.checksum ∧ ([2] : Bytes).length = catA.size) := by
  have hds : dedupAdjacent (sortPaths ([] : List FsPath)) = [] := rfl
  refine ⟨?_, by simp, by decide, by decide⟩
  simp only [real_main, hds, trim_deletions_nil]
  decide

theorem C1_witness :
    (([catA].map (·.dst_path)).Nodup ∧
     real_main sha0 server1 [(["f"], [1])] [catA] [] = some [(["f"], [1])] ∧
     catA ∈ [catA] ∧
     fsGet [(["f"], [1])] catA.dst_path = some [1]) ∧
    (sha0 [1] = catA.checksum ∧ ([1] : Bytes).length = catA.size) := by
  have hds : dedupAdjacent (sortPaths ([] : List FsPath)) = [] := rfl
  have hrun : real_main sha0 server1 [(["f"], [1])] [catA] [] = some [(["f"], [1])] := by
    simp only [real_main, hds, trim_deletions_nil]
    decide
  exact ⟨⟨by decide, hrun, by simp, by decide⟩,
    C1_success_integrity sha0 server1 [(["f"], [1])] [catA] [] (by decide) _ hrun catA
      (by simp) [1] (by decide)⟩
